import Mathlib

/-!
Verification of the tallyman traversal-and-classification pipeline.

The definitions below are a shallow embedding of the Python sources:
`languages.py` (language registry), `counter.py` (line classifier),
`aggregator.py` (statistics aggregation) and `walker.py` (tree walker).
Machine file systems are modelled as lists of path-component lists; the
gitignore matcher is an abstract boolean predicate on relative paths.
-/

set_option maxRecDepth 4000

namespace Tallyman

/-! ## String primitives

Python compares strings ordinally by code point, lowercases and strips
per character.  These helpers implement those operations over the
character list of a `String`, which the kernel can evaluate. -/

/-- Code-point lexicographic `≤` on character lists (Python string order). -/
def charListLe : List Char → List Char → Bool
  | [], _ => true
  | _ :: _, [] => false
  | a :: as, b :: bs => if a < b then true else if b < a then false else charListLe as bs

/-- Python `s1 <= s2` on strings. -/
def strLe (a b : String) : Bool := charListLe a.data b.data

/-- Code-point lexicographic `<` on character lists. -/
def charListLt : List Char → List Char → Bool
  | _, [] => false
  | [], _ :: _ => true
  | a :: as, b :: bs => if a < b then true else if b < a then false else charListLt as bs

/-- Python `s1 < s2` on strings. -/
def strLt (a b : String) : Bool := charListLt a.data b.data

/-- Python `str.startswith`. -/
def strStartsWith (s pre : String) : Bool := pre.data.isPrefixOf s.data

/-- Python `str.lower` (ASCII range, as used for extensions and names). -/
def strToLower (s : String) : String := String.mk (s.data.map Char.toLower)

/-- Python `str.strip`: drop leading and trailing whitespace. -/
def pyStrip (s : String) : String :=
  String.mk (((s.data.dropWhile Char.isWhitespace).reverse.dropWhile Char.isWhitespace).reverse)

/-- Whether a character occurs in a string. -/
def strContains (s : String) (c : Char) : Bool := s.data.contains c

/-! ## Language registry (`languages.py`) -/

/-- Embedding of the frozen dataclass `Language`. -/
structure Language where
  name : String
  category : String
  color : String
  single_line_comment : Option String
  extensions : List String
deriving DecidableEq, Repr

/-- The registry table `LANGUAGES`, transcribed entry by entry. -/
def LANGUAGES : List Language := [
  ⟨"Python",       "code",   "yellow",          some "#",  [".py"]⟩,
  ⟨"Rust",         "code",   "dark_orange",     some "//", [".rs"]⟩,
  ⟨"Go",           "code",   "cyan",            some "//", [".go"]⟩,
  ⟨"JavaScript",   "code",   "bright_yellow",   some "//", [".js", ".jsx", ".mjs"]⟩,
  ⟨"TypeScript",   "code",   "dodger_blue",     some "//", [".ts", ".tsx"]⟩,
  ⟨"Java",         "code",   "orange3",         some "//", [".java"]⟩,
  ⟨"C",            "code",   "steel_blue",      some "//", [".c"]⟩,
  ⟨"C/C++ Header", "code",   "steel_blue",      some "//", [".h"]⟩,
  ⟨"C++",          "code",   "bright_blue",     some "//", [".cpp", ".hpp", ".cc", ".cxx"]⟩,
  ⟨"C#",           "code",   "green3",          some "//", [".cs"]⟩,
  ⟨"Swift",        "code",   "orange_red1",     some "//", [".swift"]⟩,
  ⟨"Kotlin",       "code",   "medium_purple",   some "//", [".kt", ".kts"]⟩,
  ⟨"Ruby",         "code",   "red",             some "#",  [".rb"]⟩,
  ⟨"Shell",        "code",   "bright_green",    some "#",  [".sh", ".bash", ".zsh"]⟩,
  ⟨"Lua",          "code",   "blue",            some "--", [".lua"]⟩,
  ⟨"PHP",          "code",   "medium_purple3",  some "//", [".php"]⟩,
  ⟨"Perl",         "code",   "grey62",          some "#",  [".pl", ".pm"]⟩,
  ⟨"R",            "code",   "bright_blue",     some "#",  [".r", ".R"]⟩,
  ⟨"Dart",         "code",   "cyan3",           some "//", [".dart"]⟩,
  ⟨"Scala",        "code",   "red3",            some "//", [".scala"]⟩,
  ⟨"Elixir",       "code",   "dark_violet",     some "#",  [".ex", ".exs"]⟩,
  ⟨"Zig",          "code",   "orange1",         some "//", [".zig"]⟩,
  ⟨"Haskell",      "code",   "purple",          some "--", [".hs"]⟩,
  ⟨"Erlang",       "code",   "salmon1",         some "%",  [".erl"]⟩,
  ⟨"OCaml",        "code",   "sandy_brown",     none,      [".ml", ".mli"]⟩,
  ⟨"Nim",          "code",   "gold3",           some "#",  [".nim", ".nims"]⟩,
  ⟨"V",            "code",   "sky_blue1",       some "//", [".v", ".vv"]⟩,
  ⟨"Terraform",    "devops", "purple4",         some "#",  [".tf", ".tfvars"]⟩,
  ⟨"Makefile",     "devops", "bright_white",    some "#",  [".mk"]⟩,
  ⟨"Docker",       "devops", "deep_sky_blue1",  some "#",  [".dockerfile"]⟩,
  ⟨"CSS",          "design", "magenta",         none,      [".css"]⟩,
  ⟨"SCSS",         "design", "hot_pink",        some "//", [".scss"]⟩,
  ⟨"LESS",         "design", "magenta3",        some "//", [".less"]⟩,
  ⟨"HTML",         "design", "dark_orange",     none,      [".html", ".htm", ".xhtml", ".shtml", ".pt", ".jinja", ".jinja2", ".j2", ".njk", ".hbs", ".ejs", ".mustache"]⟩,
  ⟨"SVG",          "design", "gold1",           none,      [".svg"]⟩,
  ⟨"Markdown",     "docs",   "white",           none,      [".md", ".mdx"]⟩,
  ⟨"reStructuredText", "docs", "grey70",        none,      [".rst"]⟩,
  ⟨"TOML",         "data",   "grey50",          some "#",  [".toml"]⟩,
  ⟨"YAML",         "data",   "light_pink3",     some "#",  [".yml", ".yaml"]⟩,
  ⟨"JSON",         "data",   "green_yellow",    none,      [".json"]⟩,
  ⟨"XML",          "data",   "grey58",          none,      [".xml"]⟩,
  ⟨"SQL",          "data",   "bright_cyan",     some "--", [".sql"]⟩
]

/-- Python `dict` assignment: overwriting an existing key keeps its
position, a fresh key is appended at the end. -/
def dictInsert (m : List (String × Language)) (k : String) (v : Language) :
    List (String × Language) :=
  if m.any (fun p => p.1 == k) then
    m.map (fun p => if p.1 == k then (k, v) else p)
  else
    m ++ [(k, v)]

/-- Python `dict.get`. -/
def dictGet (m : List (String × Language)) (k : String) : Option Language :=
  (m.find? (fun p => p.1 == k)).map (fun p => p.2)

/-- `_build_extension_map`: for each language, each extension maps to it. -/
def EXTENSION_MAP : List (String × Language) :=
  LANGUAGES.foldl (fun m lang => lang.extensions.foldl (fun m ext => dictInsert m ext lang) m) []

/-- `by_name` lookup used by `_build_filename_map` (names are unique in the
registry, so the first match is the dict entry). -/
def byName (n : String) : Option Language :=
  LANGUAGES.find? (fun lang => lang.name == n)

/-- `_build_filename_map`: exact filenames that identify a language. -/
def FILENAME_MAP : List (String × Language) :=
  match byName "Docker", byName "Makefile" with
  | some docker, some makefile =>
    [("Dockerfile", docker), ("Makefile", makefile), ("makefile", makefile),
     ("GNUmakefile", makefile), ("docker-compose.yml", docker),
     ("docker-compose.yaml", docker), ("compose.yml", docker), ("compose.yaml", docker)]
  | _, _ => []

/-- Index of the last dot in a character list, if any. -/
def lastDotIdx (cs : List Char) : Option Nat :=
  ((List.range cs.length).filter (fun i => cs.get? i == some '.')).getLast?

/-- Python `PurePath.suffix` of a file name: the final extension with its
dot, empty when the only dot is leading or trailing. -/
def pySuffix (s : String) : String :=
  let cs := s.data
  match lastDotIdx cs with
  | none => ""
  | some i => if 0 < i && i + 1 < cs.length then String.mk (cs.drop i) else ""

/-- `identify_language`: exact filename match, then `Dockerfile` prefixed
variants, then case-insensitive extension match. -/
def identify_language (name : String) : Option Language :=
  match dictGet FILENAME_MAP name with
  | some lang => some lang
  | none =>
    if strStartsWith name "Dockerfile" then dictGet FILENAME_MAP "Dockerfile"
    else dictGet EXTENSION_MAP (strToLower (pySuffix name))

/-- The value produced by `as_spec` on a docs language: same fields with
category forced to `specs`. -/
def asSpecValue (lang : Language) : Language :=
  { lang with category := "specs" }

/-- `as_spec`: raising `ValueError` is modelled as `Except.error`. -/
def as_spec (lang : Language) : Except String Language :=
  if lang.category ≠ "docs" then
    Except.error ("as_spec() only applies to docs languages, got " ++ lang.category)
  else
    Except.ok (asSpecValue lang)

/-! ## Line classifier (`counter.py`) -/

/-- Embedding of the dataclass `FileCount`. -/
structure FileCount where
  total_lines : Nat := 0
  code_lines : Nat := 0
  comment_lines : Nat := 0
  blank_lines : Nat := 0
deriving DecidableEq, Repr

/-- One iteration of the loop body of `count_lines`. -/
def classifyLine (marker : Option String) (c : FileCount) (line : String) : FileCount :=
  let c := { c with total_lines := c.total_lines + 1 }
  let stripped := pyStrip line
  if stripped = "" then
    { c with blank_lines := c.blank_lines + 1 }
  else
    match marker with
    | some m =>
      if strStartsWith stripped m then { c with comment_lines := c.comment_lines + 1 }
      else { c with code_lines := c.code_lines + 1 }
    | none => { c with code_lines := c.code_lines + 1 }

/-- `count_lines`: the file content is the decoded line list; `none` models
an `OSError`, which yields the all-zero record. -/
def count_lines (content : Option (List String)) (language : Language) : FileCount :=
  match content with
  | none => {}
  | some lines => lines.foldl (classifyLine language.single_line_comment) {}

/-! ## Aggregator (`aggregator.py`) -/

def CATEGORY_DISPLAY_NAMES : List (String × String) :=
  [("code", "Code"), ("design", "Design"), ("docs", "Docs"),
   ("specs", "Specs"), ("data", "Data")]

def CATEGORY_ORDER : List String := ["code", "design", "docs", "specs", "data"]

/-- `CATEGORY_DISPLAY_NAMES[cat_key]` (total for the keys actually used). -/
def displayOf (ck : String) : String :=
  ((CATEGORY_DISPLAY_NAMES.find? (fun p => p.1 == ck)).map (fun p => p.2)).getD ""

/-- Embedding of the dataclass `LanguageStats`. -/
structure LanguageStats where
  language : Language
  file_count : Nat := 0
  total_lines : Nat := 0
  code_lines : Nat := 0
  comment_lines : Nat := 0
  blank_lines : Nat := 0
deriving DecidableEq, Repr

/-- Property `non_blank_non_comment`. -/
def LanguageStats.non_blank_non_comment (s : LanguageStats) : Nat := s.code_lines

/-- Property `non_blank` (total minus blank; blank never exceeds total for
records produced by the counter, so Nat subtraction is faithful). -/
def LanguageStats.non_blank (s : LanguageStats) : Nat := s.total_lines - s.blank_lines

/-- Embedding of the dataclass `CategoryStats`. -/
structure CategoryStats where
  name : String
  total_lines : Nat := 0
  effective_lines : Nat := 0
  languages : List String := []
deriving DecidableEq, Repr

/-- Embedding of the dataclass `TallyResult`. -/
structure TallyResult where
  by_language : List LanguageStats
  by_category : List CategoryStats
  grand_total_lines : Nat := 0
deriving DecidableEq, Repr

/-- The accumulation step of `aggregate` for one (language, counts) pair. -/
def addFileCount (s : LanguageStats) (c : FileCount) : LanguageStats :=
  { s with
    file_count := s.file_count + 1,
    total_lines := s.total_lines + c.total_lines,
    code_lines := s.code_lines + c.code_lines,
    comment_lines := s.comment_lines + c.comment_lines,
    blank_lines := s.blank_lines + c.blank_lines }

/-- Update of the `by_lang` dict: the entry whose key equals `lang` is
updated in place, a missing key is appended (Python dict insertion order). -/
def updateByLang (m : List LanguageStats) (lang : Language) (c : FileCount) :
    List LanguageStats :=
  match m with
  | [] => [addFileCount { language := lang } c]
  | s :: rest =>
    if s.language = lang then addFileCount s c :: rest
    else s :: updateByLang rest lang c

/-- The `by_lang` dict of `aggregate`, in insertion order. -/
def byLangOf (file_results : List (Language × FileCount)) : List LanguageStats :=
  file_results.foldl (fun m p => updateByLang m p.1 p.2) []

/-- Stable insertion for descending sort by `total_lines`
(`sorted(..., reverse=True)` keeps the original order on ties). -/
def insortStats (s : LanguageStats) : List LanguageStats → List LanguageStats
  | [] => [s]
  | t :: ts =>
    if t.total_lines ≤ s.total_lines then s :: t :: ts else t :: insortStats s ts

/-- Stable sort by `total_lines` descending. -/
def sortStats (l : List LanguageStats) : List LanguageStats :=
  l.foldr insortStats []

/-- The per-entry contribution to `cat_effective`. -/
def effectiveOf (s : LanguageStats) : Nat :=
  match s.language.single_line_comment with
  | some _ => s.non_blank_non_comment
  | none => s.non_blank

/-- The by-language entries of one category, in sorted order. -/
def catEntries (langs : List LanguageStats) (cat : String) : List LanguageStats :=
  langs.filter (fun s => s.language.category = cat)

/-- `aggregate`: group per-file results by descriptor, sort by total lines
descending, and derive category totals in the fixed display order. -/
def aggregate (file_results : List (Language × FileCount)) : TallyResult :=
  let sorted_langs := sortStats (byLangOf file_results)
  let categories := CATEGORY_ORDER.filterMap (fun ck =>
    let entries := catEntries sorted_langs ck
    if entries.isEmpty then none
    else some
      { name := displayOf ck,
        total_lines := (entries.map (fun s => s.total_lines)).sum,
        effective_lines := (entries.map effectiveOf).sum,
        languages := entries.map (fun s => s.language.name) })
  { by_language := sorted_langs,
    by_category := categories,
    grand_total_lines := (sorted_langs.map (fun s => s.total_lines)).sum }

/-- `language_percentages`; Python float division is modelled over `ℚ`. -/
def language_percentages (result : TallyResult) : List (Language × ℚ) :=
  if result.grand_total_lines = 0 then []
  else result.by_language.map (fun s =>
    (s.language, (s.total_lines : ℚ) / (result.grand_total_lines : ℚ) * 100))

/-! ## Tree walker (`walker.py`)

The file system under the analysis root is modelled as a list of files,
each a non-empty list of path components plus the binary-heuristic verdict
(`binary = true` covers both a NUL byte in the first 8 KiB and an
unreadable file).  Directories are those induced by the file paths.  The
gitignore matcher is an abstract predicate on root-relative paths, as
`GitIgnoreSpec.match_file` is a black box from the `pathspec` library. -/

/-- One file of the modelled tree. -/
structure MFile where
  path : List String
  binary : Bool
deriving DecidableEq, Repr

def SPEC_DIR_NAMES : List String := ["specs", "specifications", "plans", "agents"]

/-- `str(rel_dir / name)` with `''` for the root, as in the walker. -/
def childRel (relDir name : String) : String :=
  if relDir = "" then name else relDir ++ "/" ++ name

/-- Stable insertion in ascending code-point order (Python `sorted`). -/
def insortStr (s : String) : List String → List String
  | [] => [s]
  | t :: ts => if strLe s t then s :: t :: ts else t :: insortStr s ts

/-- Python `sorted` on strings. -/
def sortStrings (l : List String) : List String :=
  l.foldr insortStr []

/-- First-occurrence deduplication: `os.walk` reports each directory once. -/
def dedupStr (seen : List String) : List String → List String
  | [] => []
  | x :: xs => if seen.contains x then dedupStr seen xs else x :: dedupStr (x :: seen) xs

/-- The `dirnames` of a visited directory: first components of the paths
that still have at least two components. -/
def dirnamesOf (entries : List MFile) : List String :=
  dedupStr [] (entries.filterMap (fun e =>
    match e.path with
    | n :: _ :: _ => some n
    | _ => none))

/-- The `filenames` of a visited directory: single-component paths. -/
def filenamesOf (entries : List MFile) : List String :=
  entries.filterMap (fun e =>
    match e.path with
    | [n] => some n
    | _ => none)

/-- The files below subdirectory `d`, with the leading component removed. -/
def entriesUnder (entries : List MFile) (d : String) : List MFile :=
  entries.filterMap (fun e =>
    match e.path with
    | n :: c :: cs => if n = d then some ⟨c :: cs, e.binary⟩ else none
    | _ => none)

/-- `_is_binary` on the modelled tree: an absent (unreadable) file counts
as binary, matching the `OSError` branch. -/
def isBinaryFile (entries : List MFile) (name : String) : Bool :=
  match entries.find? (fun e => e.path == [name]) with
  | some e => e.binary
  | none => true

/-- The pruning filter of the walker: hidden directories, config-excluded
directories, then gitignored directories (matched with a trailing `/`). -/
def keepDir (git : String → Bool) (excluded : List String) (relDir d : String) : Bool :=
  !(strStartsWith d ".") && !(excluded.contains (childRel relDir d)) &&
    !(git (childRel relDir d ++ "/"))

/-- The surviving subdirectory names of a visited directory, in the order
they are recursed into. -/
def keptDirs (git : String → Bool) (excluded : List String) (relDir : String)
    (entries : List MFile) : List String :=
  (sortStrings (dirnamesOf entries)).filter (keepDir git excluded relDir)

/-- The spec-directory activation of a visited directory together with the
updated accumulated spec set (`active_spec_roots` mutation). -/
def specStatus (relDir dirName : String) (specRoots : List String) :
    Bool × List String :=
  if relDir = "" then (false, specRoots)
  else if SPEC_DIR_NAMES.contains (strToLower dirName) then (true, specRoots.insert relDir)
  else if specRoots.contains relDir then (true, specRoots)
  else (specRoots.any (fun sr => strStartsWith relDir (sr ++ "/")), specRoots)

/-- The walker loop body for one file: skip gitignored, unidentifiable and
binary files, reclassify docs inside an active spec directory, else yield
the pair. -/
def emitFile (git : String → Bool) (relDir : String) (dirIsSpec : Bool)
    (entries : List MFile) (fname : String) : Option (String × Language) :=
  if git (childRel relDir fname) then none
  else
    match identify_language fname with
    | none => none
    | some language =>
      if isBinaryFile entries fname then none
      else if dirIsSpec && language.category == "docs" then
        some (childRel relDir fname, asSpecValue language)
      else some (childRel relDir fname, language)

/-- The (path, language) pairs yielded for one visited directory. -/
def emitFiles (git : String → Bool) (relDir : String) (dirIsSpec : Bool)
    (entries : List MFile) : List (String × Language) :=
  (sortStrings (filenamesOf entries)).filterMap (emitFile git relDir dirIsSpec entries)

/-- One frame of the depth-first traversal: the directory's root-relative
path, its bare name, and the files below it (paths relative to it). -/
structure Frame where
  relDir : String
  dirName : String
  entries : List MFile
deriving Repr

/-- The traversal loop: depth-first, top-down, directories before their
contents, threading the accumulated spec set through the whole walk just
as the mutable `active_spec_roots` set is.  The fuel argument only bounds
the recursion depth; `walk_project` supplies enough for the whole tree. -/
def walkLoop (git : String → Bool) (excluded : List String) :
    Nat → List Frame → List String → List (String × Language)
  | 0, _, _ => []
  | _ + 1, [], _ => []
  | fuel + 1, fr :: rest, specRoots =>
    let kept := keptDirs git excluded fr.relDir fr.entries
    let status := specStatus fr.relDir fr.dirName specRoots
    let emits := emitFiles git fr.relDir status.1 fr.entries
    let childFrames := kept.map (fun d =>
      Frame.mk (childRel fr.relDir d) d (entriesUnder fr.entries d))
    emits ++ walkLoop git excluded fuel (childFrames ++ rest) status.2

/-- Fuel that dominates the number of directories the walk can visit. -/
def fuelFor (fs : List MFile) : Nat :=
  (fs.map (fun e => 1 + e.path.length)).sum + 1

/-- `walk_project`: root-relative emitted paths with their languages. -/
def walk_project (fs : List MFile) (excluded_dirs : List String)
    (git : String → Bool) (spec_dirs : List String) (rootName : String) :
    List (String × Language) :=
  walkLoop git excluded_dirs (fuelFor fs) [Frame.mk "" rootName fs] spec_dirs

/-! ## Auxiliary specification-side definitions -/

/-- The statistics an entry for descriptor `d` must carry: the fold of
exactly the records whose descriptor equals `d`. -/
def groupOf (rs : List (Language × FileCount)) (d : Language) : LanguageStats :=
  (rs.filter (fun p => p.1 = d)).foldl (fun s p => addFileCount s p.2) { language := d }

/-- Case-insensitive code-point order on strings, used to state what a
case-insensitive lexicographic traversal would have to do. -/
def ciLt (a b : String) : Bool := strLt (strToLower a) (strToLower b)

/-- The registry Markdown descriptor (docs category). -/
def mdDocs : Language := ⟨"Markdown", "docs", "white", none, [".md", ".mdx"]⟩

/-- The spec-reclassified Markdown descriptor. -/
def mdSpecs : Language := ⟨"Markdown", "specs", "white", none, [".md", ".mdx"]⟩

/-- A sample stream with the same language name under two categories. -/
def rsPair : List (Language × FileCount) :=
  [(mdDocs, ⟨1, 0, 0, 1⟩), (mdSpecs, ⟨2, 2, 0, 0⟩)]

/-! ## Proofs -/

theorem classifyLine_partition (marker : Option String) (c : FileCount) (line : String)
    (h : c.blank_lines + c.comment_lines + c.code_lines = c.total_lines) :
    (classifyLine marker c line).blank_lines + (classifyLine marker c line).comment_lines +
      (classifyLine marker c line).code_lines = (classifyLine marker c line).total_lines := by
  simp only [classifyLine]
  split
  · simp only; omega
  · cases marker with
    | none => simp only; omega
    | some m =>
      simp only
      split
      · simp only; omega
      · simp only; omega

theorem foldl_classify_partition (marker : Option String) :
    ∀ (lines : List String) (c : FileCount),
      c.blank_lines + c.comment_lines + c.code_lines = c.total_lines →
      (lines.foldl (classifyLine marker) c).blank_lines +
        (lines.foldl (classifyLine marker) c).comment_lines +
        (lines.foldl (classifyLine marker) c).code_lines =
        (lines.foldl (classifyLine marker) c).total_lines := by
  intro lines
  induction lines with
  | nil => intro c h; simpa using h
  | cons l ls ih =>
    intro c h
    simpa using ih (classifyLine marker c l) (classifyLine_partition marker c l h)

/-- C4: for every file content and every descriptor, the count record
satisfies blank + comment + code = total (all counts are `Nat`, hence
non-negative). -/
theorem count_lines_partition (content : Option (List String)) (language : Language) :
    (count_lines content language).blank_lines + (count_lines content language).comment_lines +
      (count_lines content language).code_lines = (count_lines content language).total_lines := by
  cases content with
  | none => rfl
  | some lines => exact foldl_classify_partition _ lines {} rfl

/-- C2 counterexample: the registry does not draw all categories from
{code, design, docs, specs, data}; the devops entries (Terraform,
Makefile, Docker) violate it. -/
theorem registry_has_devops_category :
    ¬ (∀ l ∈ LANGUAGES, l.category ∈ ["code", "design", "docs", "specs", "data"]) := by
  decide

/-- C2 amended: every registered descriptor's category is drawn from the
closed set {code, devops, design, docs, data}. -/
theorem registry_category_closed_set :
    ∀ l ∈ LANGUAGES, l.category ∈ ["code", "devops", "design", "docs", "data"] := by
  decide

theorem registry_category_closed_set_witness :
    (Language.mk "Python" "code" "yellow" (some "#") [".py"]) ∈ LANGUAGES ∧
      (Language.mk "Python" "code" "yellow" (some "#") [".py"]).category ∈
        ["code", "devops", "design", "docs", "data"] :=
  ⟨by decide, registry_category_closed_set _ (by decide)⟩

/-- C6: `as_spec` returns a descriptor identical in every field except the
category, forced to `specs`, for docs descriptors, and fails with an error
for every other category. -/
theorem as_spec_docs_only (lang : Language) :
    (lang.category = "docs" →
      as_spec lang =
        Except.ok ⟨lang.name, "specs", lang.color, lang.single_line_comment, lang.extensions⟩)
    ∧ (lang.category ≠ "docs" → ∃ msg, as_spec lang = Except.error msg) := by
  constructor
  · intro h
    cases lang
    simp_all [as_spec, asSpecValue]
  · intro h
    exact ⟨"as_spec() only applies to docs languages, got " ++ lang.category,
      by simp [as_spec, h]⟩

theorem as_spec_docs_only_witness :
    as_spec ⟨"Markdown", "docs", "white", none, [".md", ".mdx"]⟩ =
        Except.ok ⟨"Markdown", "specs", "white", none, [".md", ".mdx"]⟩ ∧
      ∃ msg, as_spec ⟨"Python", "code", "yellow", some "#", [".py"]⟩ = Except.error msg :=
  ⟨(as_spec_docs_only _).1 rfl, (as_spec_docs_only _).2 (by decide)⟩

/-- C7: language identification resolves by exact filename first, then the
`Dockerfile` prefix, then the lowercased extension; no match yields `none`;
`docker-compose.yml` resolves to Docker although its extension alone maps
to YAML. -/
theorem identify_language_resolution (name : String) :
    (∀ lang, dictGet FILENAME_MAP name = some lang → identify_language name = some lang)
    ∧ (dictGet FILENAME_MAP name = none → strStartsWith name "Dockerfile" = true →
        identify_language name = dictGet FILENAME_MAP "Dockerfile")
    ∧ (dictGet FILENAME_MAP name = none → strStartsWith name "Dockerfile" = false →
        identify_language name = dictGet EXTENSION_MAP (strToLower (pySuffix name)))
    ∧ (identify_language "docker-compose.yml").map Language.name = some "Docker"
    ∧ (dictGet EXTENSION_MAP ".yml").map Language.name = some "YAML"
    ∧ (identify_language "MAIN.PY").map Language.name = some "Python"
    ∧ identify_language "LICENSE" = none := by
  refine ⟨?_, ?_, ?_, by decide, by decide, by decide, by decide⟩
  · intro lang h
    simp [identify_language, h]
  · intro h hd
    simp [identify_language, h, hd]
  · intro h hd
    simp [identify_language, h, hd]

theorem identify_language_resolution_witness :
    identify_language "Makefile" =
      some ⟨"Makefile", "devops", "bright_white", some "#", [".mk"]⟩ :=
  (identify_language_resolution "Makefile").1 _ (by decide)

/-! ### Order lemmas for the traversal order -/

theorem charListLe_total : ∀ as bs : List Char,
    charListLe as bs = true ∨ charListLe bs as = true := by
  intro as
  induction as with
  | nil => intro bs; left; rfl
  | cons a as ih =>
    intro bs
    cases bs with
    | nil => right; rfl
    | cons b bs =>
      simp only [charListLe]
      rcases lt_trichotomy a b with h | h | h
      · left; simp [h]
      · subst h; simpa [lt_irrefl] using ih bs
      · right; simp [h]

theorem charListLe_trans : ∀ as bs cs : List Char,
    charListLe as bs = true → charListLe bs cs = true → charListLe as cs = true := by
  intro as
  induction as with
  | nil => intro bs cs _ _; rfl
  | cons a as ih =>
    intro bs cs h1 h2
    cases bs with
    | nil => simp [charListLe] at h1
    | cons b bs =>
      cases cs with
      | nil => simp [charListLe] at h2
      | cons c cs =>
        simp only [charListLe] at h1 h2 ⊢
        rcases lt_trichotomy a b with hab | hab | hab
        · rcases lt_trichotomy b c with hbc | hbc | hbc
          · simp [lt_trans hab hbc]
          · subst hbc; simp [hab]
          · simp [hbc, lt_asymm hbc] at h2
        · subst hab
          rcases lt_trichotomy a c with hac | hac | hac
          · simp [hac]
          · subst hac
            simp only [lt_irrefl, if_false] at h1 h2 ⊢
            exact ih _ _ h1 h2
          · simp [hac, lt_asymm hac] at h2
        · simp [hab, lt_asymm hab] at h1

theorem strLe_total (a b : String) : strLe a b = true ∨ strLe b a = true :=
  charListLe_total a.data b.data

theorem strLe_trans (a b c : String) :
    strLe a b = true → strLe b c = true → strLe a c = true :=
  charListLe_trans a.data b.data c.data

theorem charListLe_append : ∀ p as bs : List Char,
    charListLe (p ++ as) (p ++ bs) = charListLe as bs := by
  intro p
  induction p with
  | nil => intro as bs; rfl
  | cons c p ih => intro as bs; simp [charListLe, lt_irrefl, ih]

theorem strLe_childRel (r a b : String) (h : strLe a b = true) :
    strLe (childRel r a) (childRel r b) = true := by
  unfold childRel
  split
  · exact h
  · show charListLe (r ++ "/" ++ a).data (r ++ "/" ++ b).data = true
    simp only [String.data_append]
    rw [charListLe_append]
    exact h

theorem insortStr_perm (s : String) : ∀ l : List String, (insortStr s l).Perm (s :: l) := by
  intro l
  induction l with
  | nil => exact List.Perm.refl _
  | cons t ts ih =>
    simp only [insortStr]
    split
    · exact List.Perm.refl _
    · exact (List.Perm.cons t ih).trans (List.Perm.swap s t ts)

theorem sortStrings_perm : ∀ l : List String, (sortStrings l).Perm l := by
  intro l
  induction l with
  | nil => exact List.Perm.refl _
  | cons x xs ih =>
    exact (insortStr_perm x (sortStrings xs)).trans (List.Perm.cons x ih)

theorem insortStr_pairwise (s : String) :
    ∀ l : List String, l.Pairwise (fun a b => strLe a b = true) →
      (insortStr s l).Pairwise (fun a b => strLe a b = true) := by
  intro l
  induction l with
  | nil => intro _; exact List.pairwise_singleton _ _
  | cons t ts ih =>
    intro h
    rcases List.pairwise_cons.mp h with ⟨ht, hts⟩
    simp only [insortStr]
    split
    · rename_i hst
      refine List.pairwise_cons.mpr ⟨?_, h⟩
      intro x hx
      rcases List.mem_cons.mp hx with rfl | hx
      · exact hst
      · exact strLe_trans _ _ _ hst (ht x hx)
    · rename_i hst
      refine List.pairwise_cons.mpr ⟨?_, ih hts⟩
      intro x hx
      have hmem := (insortStr_perm s ts).mem_iff.mp hx
      rcases List.mem_cons.mp hmem with rfl | hx2
      · rcases strLe_total x t with h1 | h1
        · exact absurd h1 hst
        · exact h1
      · exact ht x hx2

theorem sortStrings_pairwise : ∀ l : List String,
    (sortStrings l).Pairwise (fun a b => strLe a b = true) := by
  intro l
  induction l with
  | nil => exact List.Pairwise.nil
  | cons x xs ih => exact insortStr_pairwise x (sortStrings xs) ih

theorem emitFile_fst (git : String → Bool) (relDir : String) (dirIsSpec : Bool)
    (entries : List MFile) (n : String) (p : String × Language)
    (h : emitFile git relDir dirIsSpec entries n = some p) :
    p.1 = childRel relDir n := by
  unfold emitFile at h
  split at h
  · simp at h
  · split at h
    · simp at h
    · split at h
      · simp at h
      · split at h
        · cases h; rfl
        · cases h; rfl

/-- C5 amended: at every visited directory, the surviving subdirectories
are recursed into in stable ascending code-point (case-sensitive)
lexicographic order, and the files are emitted in the same ascending
order of their paths. -/
theorem walk_directory_order (git : String → Bool) (excluded : List String)
    (relDir : String) (dirIsSpec : Bool) (entries : List MFile) :
    (keptDirs git excluded relDir entries).Pairwise (fun a b => strLe a b = true)
    ∧ ((emitFiles git relDir dirIsSpec entries).map Prod.fst).Pairwise
        (fun a b => strLe a b = true) := by
  constructor
  · exact (sortStrings_pairwise _).sublist (List.filter_sublist _)
  · unfold emitFiles
    rw [List.pairwise_map, List.pairwise_filterMap]
    refine (sortStrings_pairwise _).imp ?_
    intro a b hab x hx y hy
    simp only [Option.mem_def] at hx hy
    rw [emitFile_fst git relDir dirIsSpec entries a x hx,
      emitFile_fst git relDir dirIsSpec entries b y hy]
    exact strLe_childRel _ _ _ hab

/-- C5 counterexample: with subdirectories `B` and `a`, the walker recurses
into `B` first (code-point order), although the case-insensitive
lexicographic order puts `a` strictly before `B`. -/
theorem walk_order_not_case_insensitive :
    (walk_project [⟨["B", "x.py"], false⟩, ⟨["a", "y.py"], false⟩] []
        (fun _ => false) [] "proj").map Prod.fst = ["B/x.py", "a/y.py"]
    ∧ ciLt "a" "B" = true := by
  decide

/-! ### Grouping invariant of the aggregator -/

theorem addFileCount_language (c : FileCount) (t : LanguageStats) :
    (addFileCount t c).language = t.language := rfl

theorem byLangOf_append (rs : List (Language × FileCount)) (p : Language × FileCount) :
    byLangOf (rs ++ [p]) = updateByLang (byLangOf rs) p.1 p.2 := by
  simp [byLangOf, List.foldl_append]

theorem updateByLang_filter_ne (d l : Language) (c : FileCount) (hne : d ≠ l) :
    ∀ m : List LanguageStats,
      (updateByLang m l c).filter (fun s => s.language = d) =
        m.filter (fun s => s.language = d) := by
  intro m
  induction m with
  | nil => simp [updateByLang, addFileCount_language, Ne.symm hne]
  | cons s rest ih =>
    simp only [updateByLang]
    split
    · rename_i hs
      have h1 : ¬ (addFileCount s c).language = d := by
        rw [addFileCount_language, hs]; exact Ne.symm hne
      have h2 : ¬ s.language = d := by rw [hs]; exact Ne.symm hne
      simp [List.filter_cons, h1, h2]
    · simp [List.filter_cons, ih]

theorem updateByLang_filter_found (d : Language) (c : FileCount) (x : LanguageStats) :
    ∀ m : List LanguageStats,
      m.filter (fun s => s.language = d) = [x] →
      (updateByLang m d c).filter (fun s => s.language = d) = [addFileCount x c] := by
  intro m
  induction m with
  | nil => intro h; simp at h
  | cons s rest ih =>
    intro h
    simp only [updateByLang]
    by_cases hs : s.language = d
    · rw [List.filter_cons_of_pos (by simpa using hs)] at h
      have hx : s = x := (List.cons_eq_cons.mp h).1
      have hrest : rest.filter (fun s => s.language = d) = [] := (List.cons_eq_cons.mp h).2
      rw [if_pos hs]
      subst hx
      rw [List.filter_cons_of_pos (by simpa using (addFileCount_language c s).trans hs), hrest]
    · rw [List.filter_cons_of_neg (by simpa using hs)] at h
      rw [if_neg hs, List.filter_cons_of_neg (by simpa using hs)]
      exact ih h

theorem updateByLang_filter_new (d : Language) (c : FileCount) :
    ∀ m : List LanguageStats,
      m.filter (fun s => s.language = d) = [] →
      (updateByLang m d c).filter (fun s => s.language = d) =
        [addFileCount { language := d } c] := by
  intro m
  induction m with
  | nil => intro _; simp [updateByLang, addFileCount_language]
  | cons s rest ih =>
    intro h
    by_cases hs : s.language = d
    · rw [List.filter_cons_of_pos (by simpa using hs)] at h
      simp at h
    · rw [List.filter_cons_of_neg (by simpa using hs)] at h
      simp only [updateByLang]
      rw [if_neg hs, List.filter_cons_of_neg (by simpa using hs)]
      exact ih h

theorem not_mem_filter_eq_nil (rs : List (Language × FileCount)) (d : Language)
    (h : d ∉ rs.map Prod.fst) : rs.filter (fun p => p.1 = d) = [] := by
  rw [List.filter_eq_nil_iff]
  intro p hp
  simp only [decide_eq_true_eq]
  intro hpd
  exact h (List.mem_map.mpr ⟨p, hp, hpd⟩)

theorem byLangOf_filter (d : Language) : ∀ rs : List (Language × FileCount),
    (byLangOf rs).filter (fun s => s.language = d) =
      if d ∈ rs.map Prod.fst then [groupOf rs d] else [] := by
  intro rs
  induction rs using List.reverseRecOn with
  | nil => simp [byLangOf]
  | append_singleton rs p ih =>
    obtain ⟨l, c⟩ := p
    rw [byLangOf_append]
    by_cases hd : d = l
    · subst hd
      by_cases hmem : d ∈ rs.map Prod.fst
      · rw [if_pos hmem] at ih
        rw [updateByLang_filter_found d c _ _ ih]
        rw [if_pos (by simp)]
        have hg : groupOf (rs ++ [(d, c)]) d = addFileCount (groupOf rs d) c := by
          simp [groupOf, List.filter_append, List.foldl_append]
        rw [hg]
      · rw [if_neg hmem] at ih
        rw [updateByLang_filter_new d c _ ih]
        rw [if_pos (by simp)]
        have hnil := not_mem_filter_eq_nil rs d hmem
        have hg : groupOf (rs ++ [(d, c)]) d = addFileCount { language := d } c := by
          simp [groupOf, List.filter_append, List.foldl_append, hnil]
        rw [hg]
    · rw [updateByLang_filter_ne d l c hd, ih]
      have hiff : (d ∈ (rs ++ [(l, c)]).map Prod.fst) ↔ d ∈ rs.map Prod.fst := by
        simp [hd]
      have hsingle : ([((l : Language), (c : FileCount))]).filter (fun p => p.1 = d) = [] := by
        simp [Ne.symm hd]
      have hg : groupOf (rs ++ [(l, c)]) d = groupOf rs d := by
        simp [groupOf, List.filter_append, hsingle]
      simp only [hiff, hg]

theorem insortStats_perm (s : LanguageStats) :
    ∀ l : List LanguageStats, (insortStats s l).Perm (s :: l) := by
  intro l
  induction l with
  | nil => exact List.Perm.refl _
  | cons t ts ih =>
    simp only [insortStats]
    split
    · exact List.Perm.refl _
    · exact (List.Perm.cons t ih).trans (List.Perm.swap s t ts)

theorem sortStats_perm : ∀ l : List LanguageStats, (sortStats l).Perm l := by
  intro l
  induction l with
  | nil => exact List.Perm.refl _
  | cons x xs ih =>
    exact (insortStats_perm x (sortStats xs)).trans (List.Perm.cons x ih)

theorem aggregate_by_language_filter (rs : List (Language × FileCount)) (d : Language) :
    (aggregate rs).by_language.filter (fun s => s.language = d) =
      if d ∈ rs.map Prod.fst then [groupOf rs d] else [] := by
  have hperm : ((aggregate rs).by_language.filter (fun s => s.language = d)).Perm
      ((byLangOf rs).filter (fun s => s.language = d)) :=
    (sortStats_perm (byLangOf rs)).filter _
  rw [byLangOf_filter d rs] at hperm
  by_cases hmem : d ∈ rs.map Prod.fst
  · rw [if_pos hmem] at hperm ⊢
    exact List.perm_singleton.mp hperm
  · rw [if_neg hmem] at hperm ⊢
    exact hperm.eq_nil

/-- C3: aggregation groups by descriptor identity, so two descriptors with
the same name but different categories get two separate by-language
entries, each the fold of exactly its own records, and the grand total is
the sum over all grouped entries of their total line counts. -/
theorem aggregate_groups_by_identity (rs : List (Language × FileCount)) (d1 d2 : Language)
    (hname : d1.name = d2.name) (hcat : d1.category ≠ d2.category) :
    d1 ≠ d2
    ∧ ((aggregate rs).by_language.filter (fun s => s.language = d1) =
        if d1 ∈ rs.map Prod.fst then [groupOf rs d1] else [])
    ∧ ((aggregate rs).by_language.filter (fun s => s.language = d2) =
        if d2 ∈ rs.map Prod.fst then [groupOf rs d2] else [])
    ∧ (aggregate rs).grand_total_lines =
        ((aggregate rs).by_language.map (fun s => s.total_lines)).sum := by
  refine ⟨?_, aggregate_by_language_filter rs d1, aggregate_by_language_filter rs d2, rfl⟩
  intro h
  exact hcat (h ▸ rfl)

theorem aggregate_groups_by_identity_witness :
    mdDocs.name = mdSpecs.name ∧ mdDocs.category ≠ mdSpecs.category ∧
      (mdDocs ≠ mdSpecs
       ∧ ((aggregate rsPair).by_language.filter (fun s => s.language = mdDocs) =
           if mdDocs ∈ rsPair.map Prod.fst then [groupOf rsPair mdDocs] else [])
       ∧ ((aggregate rsPair).by_language.filter (fun s => s.language = mdSpecs) =
           if mdSpecs ∈ rsPair.map Prod.fst then [groupOf rsPair mdSpecs] else [])
       ∧ (aggregate rsPair).grand_total_lines =
           ((aggregate rsPair).by_language.map (fun s => s.total_lines)).sum) :=
  ⟨rfl, by decide, aggregate_groups_by_identity rsPair mdDocs mdSpecs rfl (by decide)⟩

/-! ### Category totals and percentages -/


theorem aggregate_by_language_eq (rs : List (Language × FileCount)) :
    (aggregate rs).by_language = sortStats (byLangOf rs) := rfl

theorem aggregate_by_category_eq (rs : List (Language × FileCount)) :
    (aggregate rs).by_category =
      CATEGORY_ORDER.filterMap (fun ck =>
        let entries := catEntries (sortStats (byLangOf rs)) ck
        if entries.isEmpty then none
        else some
          { name := displayOf ck,
            total_lines := (entries.map (fun s => s.total_lines)).sum,
            effective_lines := (entries.map effectiveOf).sum,
            languages := entries.map (fun s => s.language.name) }) := rfl

theorem filterMap_names_sublist {α : Type} (f : String → Option α) (nm : α → String)
    (hf : ∀ ck v, f ck = some v → nm v = displayOf ck) :
    ∀ cats : List String, ((cats.filterMap f).map nm).Sublist (cats.map displayOf) := by
  intro cats
  induction cats with
  | nil => simp
  | cons ck cks ih =>
    simp only [List.filterMap_cons]
    cases hv : f ck with
    | none => simp only [List.map_cons]; exact ih.cons _
    | some v => simp only [List.map_cons]; rw [hf ck v hv]; exact ih.cons₂ _

theorem displayOf_inj : ∀ a ∈ CATEGORY_ORDER, ∀ b ∈ CATEGORY_ORDER,
    displayOf a = displayOf b → a = b := by decide

theorem aggregate_category_order (rs : List (Language × FileCount)) :
    ((aggregate rs).by_category.map (fun c => c.name)).Sublist (CATEGORY_ORDER.map displayOf)
    ∧ ∀ ck ∈ CATEGORY_ORDER,
        (displayOf ck ∈ (aggregate rs).by_category.map (fun c => c.name) ↔
          ∃ s ∈ (aggregate rs).by_language, s.language.category = ck) := by
  constructor
  · rw [aggregate_by_category_eq]
    refine filterMap_names_sublist _ _ ?_ CATEGORY_ORDER
    intro ck v h
    simp only at h
    split at h
    · simp at h
    · cases h; rfl
  · intro ck hck
    constructor
    · intro hmem
      rw [aggregate_by_category_eq] at hmem
      rcases List.mem_map.mp hmem with ⟨cstat, hcstat, hname⟩
      rcases List.mem_filterMap.mp hcstat with ⟨ck2, hck2, hsome⟩
      simp only at hsome
      split at hsome
      · simp at hsome
      · rename_i hne
        cases hsome
        simp only at hname
        have : ck2 = ck := displayOf_inj ck2 hck2 ck hck hname
        subst this
        have hne2 : catEntries (sortStats (byLangOf rs)) ck2 ≠ [] := by
          intro habs
          rw [habs] at hne
          exact hne rfl
        rcases List.exists_mem_of_ne_nil _ hne2 with ⟨s, hs⟩
        rcases List.mem_filter.mp hs with ⟨hs1, hs2⟩
        exact ⟨s, hs1, by simpa using hs2⟩
    · intro ⟨s, hs, hcat⟩
      rw [aggregate_by_category_eq]
      have hmem : s ∈ catEntries (sortStats (byLangOf rs)) ck :=
        List.mem_filter.mpr ⟨hs, by simpa using hcat⟩
      have hne : (catEntries (sortStats (byLangOf rs)) ck).isEmpty = false := by
        cases hlist : catEntries (sortStats (byLangOf rs)) ck with
        | nil => rw [hlist] at hmem; simp at hmem
        | cons a l => simp
      refine List.mem_map.mpr
        ⟨{ name := displayOf ck,
           total_lines := ((catEntries (sortStats (byLangOf rs)) ck).map (fun s => s.total_lines)).sum,
           effective_lines := ((catEntries (sortStats (byLangOf rs)) ck).map effectiveOf).sum,
           languages := (catEntries (sortStats (byLangOf rs)) ck).map (fun s => s.language.name) },
         List.mem_filterMap.mpr ⟨ck, hck, ?_⟩, rfl⟩
      simp [hne]

theorem aggregate_category_order_witness :
    ((aggregate rsPair).by_category.map (fun c => c.name)).Sublist (CATEGORY_ORDER.map displayOf)
    ∧ (displayOf "docs" ∈ (aggregate rsPair).by_category.map (fun c => c.name) ↔
        ∃ s ∈ (aggregate rsPair).by_language, s.language.category = "docs") :=
  ⟨(aggregate_category_order rsPair).1, (aggregate_category_order rsPair).2 "docs" (by decide)⟩

theorem sum_map_mul_q (q : ℚ) : ∀ l : List LanguageStats,
    (l.map (fun s => (s.total_lines : ℚ) * q)).sum =
      (l.map (fun s => (s.total_lines : ℚ))).sum * q := by
  intro l
  induction l with
  | nil => simp
  | cons s ls ih => simp [ih, add_mul]

theorem cast_sum_totals : ∀ l : List LanguageStats,
    (((l.map (fun s => s.total_lines)).sum : ℕ) : ℚ) =
      (l.map (fun s => (s.total_lines : ℚ))).sum := by
  intro l
  induction l with
  | nil => simp
  | cons s ls ih =>
    simp only [List.map_cons, List.sum_cons, Nat.cast_add]
    rw [ih]

theorem language_percentages_sound (rs : List (Language × FileCount)) :
    ((aggregate rs).grand_total_lines = 0 → language_percentages (aggregate rs) = [])
    ∧ (0 < (aggregate rs).grand_total_lines →
        language_percentages (aggregate rs) =
          (aggregate rs).by_language.map (fun s =>
            (s.language, (s.total_lines : ℚ) / ((aggregate rs).grand_total_lines : ℚ) * 100))
        ∧ ((language_percentages (aggregate rs)).map (fun p => p.2)).sum = 100) := by
  constructor
  · intro h
    simp [language_percentages, h]
  · intro h
    have hne : (aggregate rs).grand_total_lines ≠ 0 := Nat.pos_iff_ne_zero.mp h
    have heq : language_percentages (aggregate rs) =
        (aggregate rs).by_language.map (fun s =>
          (s.language, (s.total_lines : ℚ) / ((aggregate rs).grand_total_lines : ℚ) * 100)) := by
      simp [language_percentages, hne]
    refine ⟨heq, ?_⟩
    rw [heq, List.map_map]
    have hqne : (((aggregate rs).grand_total_lines : ℕ) : ℚ) ≠ 0 :=
      Nat.cast_ne_zero.mpr hne
    have hcomp : ((fun (p : Language × ℚ) => p.2) ∘
        (fun (s : LanguageStats) =>
          (s.language, (s.total_lines : ℚ) / ((aggregate rs).grand_total_lines : ℚ) * 100))) =
        fun (s : LanguageStats) =>
          (s.total_lines : ℚ) * (100 / ((aggregate rs).grand_total_lines : ℚ)) := by
      funext s
      simp only [Function.comp_apply]
      rw [div_mul_eq_mul_div, mul_div_assoc]
    rw [hcomp, sum_map_mul_q]
    have hsum : ((aggregate rs).by_language.map (fun s => (s.total_lines : ℚ))).sum =
        (((aggregate rs).grand_total_lines : ℕ) : ℚ) := by
      rw [← cast_sum_totals]
      rfl
    rw [hsum]
    field_simp

theorem language_percentages_sound_witness :
    language_percentages (aggregate rsPair) =
        (aggregate rsPair).by_language.map (fun s =>
          (s.language, (s.total_lines : ℚ) / ((aggregate rsPair).grand_total_lines : ℚ) * 100))
    ∧ ((language_percentages (aggregate rsPair)).map (fun p => p.2)).sum = 100 :=
  (language_percentages_sound rsPair).2 (by decide)

/-! ### Walker: spec scoping and nested configurations -/


theorem mem_dedupStr : ∀ (seen l : List String) (x : String), x ∈ dedupStr seen l → x ∈ l := by
  intro seen l
  induction l generalizing seen with
  | nil => intro x h; simp [dedupStr] at h
  | cons a as ih =>
    intro x h
    simp only [dedupStr] at h
    split at h
    · exact List.mem_cons_of_mem a (ih seen x h)
    · rcases List.mem_cons.mp h with rfl | h2
      · exact List.mem_cons_self _ _
      · exact List.mem_cons_of_mem a (ih _ x h2)

theorem filter_eq_single_find? {α : Type} (p : α → Bool) :
    ∀ (l : List α) (x : α), l.filter p = [x] → l.find? p = some x := by
  intro l
  induction l with
  | nil => intro x h; simp at h
  | cons a as ih =>
    intro x h
    by_cases ha : p a
    · rw [List.filter_cons_of_pos ha] at h
      rw [List.find?_cons_of_pos _ ha]
      exact congrArg some (List.cons_eq_cons.mp h).1
    · rw [List.filter_cons_of_neg ha] at h
      rw [List.find?_cons_of_neg _ ha]
      exact ih x h

theorem count_filenamesOf (fname : String) : ∀ fs : List MFile,
    (filenamesOf fs).count fname = (fs.filter (fun e => e.path == [fname])).length := by
  intro fs
  induction fs with
  | nil => rfl
  | cons e es ih =>
    obtain ⟨path, bin⟩ := e
    cases path with
    | nil =>
      simpa [filenamesOf, List.filterMap_cons, List.filter_cons] using ih
    | cons n tail =>
      cases tail with
      | nil =>
        by_cases hn : n = fname
        · subst hn
          simp only [filenamesOf, List.filterMap_cons, List.filter_cons,
            List.count_cons, beq_self_eq_true, if_true, List.length_cons]
          simpa using ih
        · simp only [filenamesOf, List.filterMap_cons, List.filter_cons,
            List.count_cons]
          simp only [List.cons_eq_cons, hn, beq_iff_eq, and_false, if_false]
          simpa [hn] using ih
      | cons m rest =>
        simpa [filenamesOf, List.filterMap_cons, List.filter_cons] using ih

theorem filterMap_filter_single (f : String → Option (String × Language))
    (hf : ∀ n p, f n = some p → p.1 = n) (fname : String) (v : String × Language)
    (hval : f fname = some v) :
    ∀ names : List String, names.count fname = 1 →
      (names.filterMap f).filter (fun p => p.1 = fname) = [v] := by
  intro names
  induction names with
  | nil => intro h; simp at h
  | cons n ns ih =>
    intro h
    by_cases hn : n = fname
    · subst hn
      have hcount : ns.count n = 0 := by
        have := List.count_cons_self n ns ▸ h
        omega
      have hnotmem : n ∉ ns := by
        rw [← List.count_pos_iff]
        omega
      simp only [List.filterMap_cons, hval]
      have hfst : v.1 = n := hf n v hval
      rw [List.filter_cons_of_pos (by simp [hfst])]
      have hrest : (ns.filterMap f).filter (fun p => p.1 = n) = [] := by
        rw [List.filter_eq_nil_iff]
        intro p hp
        rcases List.mem_filterMap.mp hp with ⟨m, hm, hfm⟩
        have : p.1 = m := hf m p hfm
        simp only [decide_eq_true_eq, this]
        intro habs
        exact hnotmem (habs ▸ hm)
      rw [hrest]
    · have hcount : ns.count fname = 1 := by
        rw [List.count_cons] at h
        simpa [hn] using h
      simp only [List.filterMap_cons]
      cases hfn : f n with
      | none => exact ih hcount
      | some p =>
        have hfst : p.1 = n := hf n p hfn
        rw [List.filter_cons_of_neg (by simp [hfst, hn])]
        exact ih hcount

theorem emitFile_root (git : String → Bool) (fs : List MFile) (fname : String)
    (lang : Language)
    (huniq : fs.filter (fun e => e.path == [fname]) = [⟨[fname], false⟩])
    (hgit : git fname = false)
    (hid : identify_language fname = some lang) :
    emitFile git "" false fs fname = some (fname, lang) := by
  have hfind : fs.find? (fun e => e.path == [fname]) = some ⟨[fname], false⟩ :=
    filter_eq_single_find? _ fs _ huniq
  have hbin : isBinaryFile fs fname = false := by
    simp [isBinaryFile, hfind]
  have hrel : childRel "" fname = fname := rfl
  simp [emitFile, hrel, hgit, hid, hbin]

theorem string_append_slash_ne_empty (r n : String) : r ++ "/" ++ n ≠ "" := by
  intro h
  have : (r ++ "/" ++ n).data = [] := by rw [h]
  simp [String.data_append] at this

theorem childRel_contains_slash (r n : String) (hr : r ≠ "") :
    strContains (childRel r n) '/' = true := by
  unfold childRel
  rw [if_neg hr]
  show ((r ++ "/" ++ n).data.contains '/') = true
  simp only [String.data_append]
  have : '/' ∈ r.data ++ "/".data ++ n.data := by
    apply List.mem_append_left
    apply List.mem_append_right
    simp [String.data]
  exact List.elem_eq_true_of_mem this

theorem walkLoop_deep_slash (git : String → Bool) (excluded : List String) :
    ∀ (fuel : Nat) (frames : List Frame) (sr : List String),
      (∀ fr ∈ frames, fr.relDir ≠ "") →
      ∀ p ∈ walkLoop git excluded fuel frames sr, strContains p.1 '/' = true := by
  intro fuel
  induction fuel with
  | zero => intro frames sr _ p hp; simp [walkLoop] at hp
  | succ n ih =>
    intro frames sr hfr p hp
    cases frames with
    | nil => simp [walkLoop] at hp
    | cons fr rest =>
      simp only [walkLoop, List.mem_append] at hp
      rcases hp with hp | hp
      · rcases List.mem_filterMap.mp hp with ⟨m, _, hfm⟩
        rw [emitFile_fst _ _ _ _ _ _ hfm]
        exact childRel_contains_slash _ _ (hfr fr (List.mem_cons_self _ _))
      · refine ih _ _ ?_ p hp
        intro fr2 hfr2
        rcases List.mem_append.mp hfr2 with h2 | h2
        · rcases List.mem_map.mp h2 with ⟨d, _, rfl⟩
          show childRel fr.relDir d ≠ ""
          unfold childRel
          rw [if_neg (hfr fr (List.mem_cons_self _ _))]
          exact string_append_slash_ne_empty _ _
        · exact hfr fr2 (List.mem_cons_of_mem _ h2)

theorem mem_keptDirs_root_ne_empty (git : String → Bool) (excluded : List String)
    (fs : List MFile) (hcomp : ∀ e ∈ fs, ∀ c ∈ e.path, c ≠ "") :
    ∀ d ∈ keptDirs git excluded "" fs, d ≠ "" := by
  intro d hd
  have h1 : d ∈ sortStrings (dirnamesOf fs) := List.mem_of_mem_filter hd
  have h2 : d ∈ dirnamesOf fs := (sortStrings_perm _).mem_iff.mp h1
  have h3 := mem_dedupStr _ _ _ h2
  rcases List.mem_filterMap.mp h3 with ⟨e, he, hde⟩
  match hp : e.path with
  | [] => rw [hp] at hde; simp at hde
  | [n] => rw [hp] at hde; simp at hde
  | n :: m :: rest =>
    rw [hp] at hde
    simp only [Option.some_inj] at hde
    exact hde ▸ hcomp e he n (by rw [hp]; exact List.mem_cons_self _ _)

/-- C10: spec-directory reclassification never applies to the walk root
itself: whatever the root directory is named (`specs` included), a file
directly in the root is emitted with its identified language unchanged, so
a docs file stays docs. -/
theorem walk_root_not_reclassified (fs : List MFile) (excluded : List String)
    (git : String → Bool) (spec_dirs : List String) (rootName fname : String)
    (lang : Language)
    (huniq : fs.filter (fun e => e.path == [fname]) = [⟨[fname], false⟩])
    (hcomp : ∀ e ∈ fs, ∀ c ∈ e.path, c ≠ "")
    (hgit : git fname = false)
    (hslash : strContains fname '/' = false)
    (hid : identify_language fname = some lang) :
    (walk_project fs excluded git spec_dirs rootName).filter (fun p => p.1 = fname) =
      [(fname, lang)] := by
  unfold walk_project fuelFor
  rw [walkLoop]
  have hstatus : specStatus "" rootName spec_dirs = (false, spec_dirs) := rfl
  rw [hstatus]
  simp only [List.filter_append]
  have hcount : (sortStrings (filenamesOf fs)).count fname = 1 := by
    rw [(sortStrings_perm (filenamesOf fs)).count_eq, count_filenamesOf, huniq]
    rfl
  have hemits : (emitFiles git "" false fs).filter (fun p => p.1 = fname) = [(fname, lang)] := by
    unfold emitFiles
    refine filterMap_filter_single _ ?_ fname (fname, lang)
      (emitFile_root git fs fname lang huniq hgit hid) _ hcount
    intro n p h
    exact emitFile_fst _ _ _ _ _ _ h
  have hrest : (walkLoop git excluded ((fs.map (fun e => 1 + e.path.length)).sum)
      ((keptDirs git excluded "" fs).map (fun d =>
        Frame.mk (childRel "" d) d (entriesUnder fs d)) ++ []) spec_dirs).filter
      (fun p => p.1 = fname) = [] := by
    rw [List.filter_eq_nil_iff]
    intro p hp
    have hframes : ∀ fr ∈ (keptDirs git excluded "" fs).map (fun d =>
        Frame.mk (childRel "" d) d (entriesUnder fs d)) ++ ([] : List Frame),
        fr.relDir ≠ "" := by
      intro fr hfr
      rcases List.mem_append.mp hfr with h2 | h2
      · rcases List.mem_map.mp h2 with ⟨d, hd, rfl⟩
        show childRel "" d ≠ ""
        have : childRel "" d = d := rfl
        rw [this]
        exact mem_keptDirs_root_ne_empty git excluded fs hcomp d hd
      · simp at h2
    have := walkLoop_deep_slash git excluded _ _ spec_dirs hframes p hp
    simp only [decide_eq_true_eq]
    intro habs
    rw [habs] at this
    rw [this] at hslash
    simp at hslash
  rw [hemits, hrest]
  simp


theorem walk_root_not_reclassified_witness :
    ([⟨["README.md"], false⟩] : List MFile).filter (fun e => e.path == ["README.md"]) =
        [⟨["README.md"], false⟩]
    ∧ identify_language "README.md" = some mdDocs
    ∧ (walk_project [⟨["README.md"], false⟩] [] (fun _ => false) [] "specs").filter
        (fun p => p.1 = "README.md") = [("README.md", mdDocs)] :=
  ⟨by decide, by decide,
    walk_root_not_reclassified _ _ _ _ _ _ _ (by decide) (by decide) rfl (by decide)
      (by decide)⟩

/-- C1 (code-bug evidence): the walker never reads nested configuration
files.  With `project1/.tally-config.toml` present (a nested configuration
whose exclusion list names `vendor`), `walk_project` still traverses
`project1/vendor` and emits `project1/vendor/lib.py` — the nested
exclusions have no effect on the emitted stream (it even emits the
configuration file itself as TOML). -/
theorem walker_ignores_nested_config :
    (walk_project [⟨["project1", ".tally-config.toml"], false⟩,
        ⟨["project1", "app.py"], false⟩,
        ⟨["project1", "vendor", "lib.py"], false⟩] []
      (fun _ => false) [] "root").map Prod.fst =
      ["project1/.tally-config.toml", "project1/app.py", "project1/vendor/lib.py"] := by
  decide

end Tallyman
